import Mathlib

/-!
Shallow embedding of `detector/detection_results.go` from the talisman
repository: the result-aggregation and reporting layer of a secret scanner.

Modelling choices:
* Go maps (`map[git_repo.FilePath][]FailureData`, `map[git_repo.FilePath][]string`)
  are modelled as association lists with insert-or-replace update; Go map
  iteration order is unspecified, the association-list order stands in for one
  admissible iteration order.
* Go strings are modelled as Lean strings; positional slicing
  (`failureMessage[:150]`) is modelled on the character list of the string.
* External collaborators (`CalculateCollectiveHash`, `yaml.Marshal`, the
  `tablewriter` table renderer) are parameters gathered in `ReportConfig`;
  `yaml.Marshal` returns a text and an optional error, matching the Go pair
  `([]byte, error)`.
* `Report` writes the banner and the rendered table to standard output and
  returns a string; it is modelled as returning the pair
  (text written to stdout, returned string).
-/

set_option autoImplicit false

namespace Talisman

/-- `git_repo.FilePath` is a string type (`type FilePath string`). -/
abbrev FilePath := String

/-- `FailureData` from `detection_results.go`: one recorded failure, a batch of
messages and the associated commit identifiers. -/
structure FailureData where
  Message : List String
  Commits : List String
deriving DecidableEq

/-- `NewFaulureData` (sic, the source misspells it) builds a `FailureData`. -/
def NewFaulureData (message : List String) (commits : List String) : FailureData :=
  { Message := message, Commits := commits }

/-- `DetectionResults`: failures and ignores grouped by file path. -/
structure DetectionResults where
  Failures : List (FilePath × List FailureData)
  ignores : List (FilePath × List String)
deriving DecidableEq

/-- `NewDetectionResults()`: both maps start empty. -/
def NewDetectionResults : DetectionResults := ⟨[], []⟩

/-- Go map read `m[k]` in its two-value form: the value if the key is present. -/
def alistLookup {α : Type} : List (FilePath × α) → FilePath → Option α
  | [], _ => none
  | (k, v) :: rest, key => if k = key then some v else alistLookup rest key

/-- Go map write `m[k] = v`: replace the binding of `k`, or add it. -/
def alistInsert {α : Type} : List (FilePath × α) → FilePath → α → List (FilePath × α)
  | [], key, v => [(key, v)]
  | (k, w) :: rest, key, v =>
    if k = key then (key, v) :: rest else (k, w) :: alistInsert rest key v

/-- `Fail(filePath, message, commits)`: append a `FailureData` built from the
single message and the commits to `Failures[filePath]`, creating the entry if
absent. -/
def Fail (r : DetectionResults) (filePath : FilePath) (message : String)
    (commits : List String) : DetectionResults :=
  match alistLookup r.Failures filePath with
  | none =>
    { r with Failures :=
        alistInsert r.Failures filePath [NewFaulureData [message] commits] }
  | some errors =>
    { r with Failures :=
        alistInsert r.Failures filePath (errors ++ [NewFaulureData [message] commits]) }

/-- `Ignore(filePath, detector)`: append the detector name to
`ignores[filePath]`, creating the entry if absent. -/
def Ignore (r : DetectionResults) (filePath : FilePath) (detector : String) :
    DetectionResults :=
  match alistLookup r.ignores filePath with
  | none => { r with ignores := alistInsert r.ignores filePath [detector] }
  | some igns =>
    { r with ignores := alistInsert r.ignores filePath (igns ++ [detector]) }

/-- `HasFailures()`: `len(r.Failures) > 0`. -/
def HasFailures (r : DetectionResults) : Bool := decide (0 < r.Failures.length)

/-- `HasIgnores()`: `len(r.ignores) > 0`. -/
def HasIgnores (r : DetectionResults) : Bool := decide (0 < r.ignores.length)

/-- `Successful()`: `!r.HasFailures()`. -/
def Successful (r : DetectionResults) : Bool := !(HasFailures r)

/-- `GetFailures(fileName)` as the Go expression `return r.Failures[fileName]`
evaluates: a Go map index read yields the stored value, or the zero value
(`nil` slice) when the key is absent, and leaves the map unchanged — the pair
is (returned slice, state of the store after the read). -/
def GetFailuresRead (r : DetectionResults) (fileName : FilePath) :
    List FailureData × DetectionResults :=
  match alistLookup r.Failures fileName with
  | some v => (v, r)
  | none => ([], r)

/-- `GetFailures(fileName)`: the value the Go function returns. -/
def GetFailures (r : DetectionResults) (fileName : FilePath) : List FailureData :=
  (GetFailuresRead r fileName).1

/-- The truncation applied to each failure message in `ReportFileFailures`:
`if len(failureMessage) > 150 { failureMessage = failureMessage[:150] + "\n" + failureMessage[150:] }`. -/
def truncateMessage (failureMessage : String) : String :=
  if 150 < failureMessage.length then
    String.mk (failureMessage.data.take 150) ++ "\n" ++
      String.mk (failureMessage.data.drop 150)
  else failureMessage

/-- One row appended to the table data for a failure message. -/
def failureRow (filePath : FilePath) (toBeScanned : Bool) (commits : List String)
    (failureMessage : String) : List String :=
  if toBeScanned then
    [filePath, truncateMessage failureMessage, String.intercalate "\n" commits]
  else [filePath, truncateMessage failureMessage]

/-- `ReportFileFailures(filePath, toBeScanned)`: one row per message of each
`FailureData` recorded for the path, in order. -/
def ReportFileFailures (r : DetectionResults) (filePath : FilePath)
    (toBeScanned : Bool) : List (List String) :=
  ((alistLookup r.Failures filePath).getD []).foldl
    (fun data failureData =>
      data ++ failureData.Message.map (failureRow filePath toBeScanned failureData.Commits))
    []

/-- `FileIgnoreConfig`: one suggested ignore rule. -/
structure FileIgnoreConfig where
  fileName : String
  checksum : String
  allowedPatterns : List String
deriving DecidableEq

/-- `TalismanRCIgnore`: the whole suggested ignore block before serialization. -/
structure TalismanRCIgnore where
  fileIgnoreConfigs : List FileIgnoreConfig
deriving DecidableEq

/-- The external collaborators consumed by `Report`:
`CalculateCollectiveHash` (checksum of a path list), `yaml.Marshal` (returns
serialized text and an optional error, the Go `([]byte, error)` pair), and the
`tablewriter` rendering of the accumulated table data. -/
structure ReportConfig where
  CalculateCollectiveHash : List String → String
  yamlMarshal : TalismanRCIgnore → String × Option String
  renderTable : List (List String) → String

/-- The loop of `suggestTalismanRC` building `fileIgnoreConfigs`: for each
path, one `FileIgnoreConfig` with the checksum of the one-element list holding
just that path and an empty pattern list, appended in order. -/
def suggestedConfigs (hash : List String → String) (filePaths : List String) :
    List FileIgnoreConfig :=
  filePaths.foldl
    (fun fileIgnoreConfigs filePath =>
      fileIgnoreConfigs ++
        [{ fileName := filePath, checksum := hash [filePath], allowedPatterns := [] }])
    []

/-- `suggestTalismanRC(filePaths)`: serialize the suggested block with
`yaml.Marshal`, discarding the error component (`m, _ := yaml.Marshal(...)`)
and returning the text component alone. -/
def suggestTalismanRC (cfg : ReportConfig) (filePaths : List String) : String :=
  (cfg.yamlMarshal
    { fileIgnoreConfigs := suggestedConfigs cfg.CalculateCollectiveHash filePaths }).1

/-- The `unique` helper with its `seen` set made explicit: keep the first
occurrence of each entry. -/
def uniqueAux : List String → List String → List String
  | [], _ => []
  | entry :: rest, seen =>
    if entry ∈ seen then uniqueAux rest seen
    else entry :: uniqueAux rest (entry :: seen)

/-- `unique(stringSlice)`: drop duplicate entries, keeping first occurrences in
order. -/
def unique (stringSlice : List String) : List String := uniqueAux stringSlice []

/-- The failure-path names collected by the first loop of `Report`. -/
def failurePaths (r : DetectionResults) : List String :=
  r.Failures.map Prod.fst

/-- `ignorePaths()`: the keys of the ignores map. -/
def ignorePaths (r : DetectionResults) : List String :=
  r.ignores.map Prod.fst

/-- `filePathsForIgnoresAndFailures` as computed in `Report`: failure keys,
then ignore keys, deduplicated by `unique`. -/
def reportPaths (r : DetectionResults) : List String :=
  unique (failurePaths r ++ ignorePaths r)

/-- The table data accumulated by the first loop of `Report`: the
`ReportFileFailures` rows of every failing path, in key order. -/
def reportData (r : DetectionResults) : List (List String) :=
  (failurePaths r).foldl (fun data filePath => data ++ ReportFileFailures r filePath false) []

/-- The banner `Report` prints to stdout:
`fmt.Printf("\n\x1b[1m\x1b[31mTalisman Report:\x1b[0m\x1b[0m\n")`. -/
def bannerText : String := "\n\x1b[1m\x1b[31mTalisman Report:\x1b[0m\x1b[0m\n"

/-- The instructional note appended to the returned string. -/
def noteText : String :=
  "\n\x1b[33mIf you are absolutely sure that you want to ignore the above files from talisman detectors, consider pasting the following format in .talismanrc file in the project root\x1b[0m\n"

/-- `Report()`: the pair (text written to stdout, returned string). When
failures exist, stdout receives the banner followed by the rendered table, and
the returned string is the note, the suggested ignore block and a trailing
blank line; otherwise nothing is written and the empty string is returned. -/
def Report (cfg : ReportConfig) (r : DetectionResults) : String × String :=
  if 0 < r.Failures.length then
    (bannerText ++ cfg.renderTable (reportData r),
      noteText ++ suggestTalismanRC cfg (reportPaths r) ++ "\n\n")
  else ("", "")

/-- A detector callback during a run: a `Fail` or an `Ignore` call. -/
inductive Op where
  | fail (path : FilePath) (message : String) (commits : List String)
  | ignore (path : FilePath) (detector : String)

/-- Apply one detector callback to the store. -/
def step (r : DetectionResults) : Op → DetectionResults
  | Op.fail p m c => Fail r p m c
  | Op.ignore p d => Ignore r p d

/-- A whole run: the callbacks applied in order to the fresh empty store. -/
def run (ops : List Op) : DetectionResults := ops.foldl step NewDetectionResults

/-- Whether a callback is a `Fail` call. -/
def Op.isFail : Op → Bool
  | Op.fail _ _ _ => true
  | Op.ignore _ _ => false

/-- The (message, commits) arguments of the `Fail` calls of a run that target
the given path, in call order. -/
def failCallsOn (path : FilePath) : List Op → List (String × List String)
  | [] => []
  | Op.fail p m c :: rest =>
    if p = path then (m, c) :: failCallsOn path rest else failCallsOn path rest
  | Op.ignore _ _ :: rest => failCallsOn path rest

/-! ### Association-list lemmas (Go map read/write) -/

theorem alistLookup_insert_self {α : Type} (m : List (FilePath × α)) (k : FilePath)
    (v : α) : alistLookup (alistInsert m k v) k = some v := by
  induction m with
  | nil => simp [alistInsert, alistLookup]
  | cons kv rest ih =>
    obtain ⟨k2, w⟩ := kv
    by_cases h : k2 = k <;> simp [alistInsert, alistLookup, h, ih]

theorem alistLookup_insert_ne {α : Type} (m : List (FilePath × α)) (k q : FilePath)
    (v : α) (h : k ≠ q) : alistLookup (alistInsert m k v) q = alistLookup m q := by
  induction m with
  | nil => simp [alistInsert, alistLookup, h]
  | cons kv rest ih =>
    obtain ⟨k2, w⟩ := kv
    by_cases h2 : k2 = k
    · subst h2; simp [alistInsert, alistLookup, h]
    · simp [alistInsert, alistLookup, h2, ih]

theorem mem_keys_alistInsert {α : Type} (m : List (FilePath × α)) (k p : FilePath)
    (v : α) : p ∈ (alistInsert m k v).map Prod.fst ↔ p = k ∨ p ∈ m.map Prod.fst := by
  induction m with
  | nil => simp [alistInsert]
  | cons kv rest ih =>
    obtain ⟨k2, w⟩ := kv
    by_cases h : k2 = k
    · subst h; simp [alistInsert]
    · simp [alistInsert, h, ih]; tauto

theorem mem_alistInsert {α : Type} (m : List (FilePath × α)) (k p : FilePath)
    (v w : α) (h : (p, w) ∈ alistInsert m k v) : (p = k ∧ w = v) ∨ (p, w) ∈ m := by
  induction m with
  | nil => simp [alistInsert] at h; exact Or.inl h
  | cons kv rest ih =>
    obtain ⟨k2, u⟩ := kv
    by_cases h2 : k2 = k
    · subst h2
      simp [alistInsert] at h
      rcases h with ⟨rfl, rfl⟩ | hmem
      · exact Or.inl ⟨rfl, rfl⟩
      · exact Or.inr (List.mem_cons_of_mem _ hmem)
    · simp [alistInsert, h2] at h
      rcases h with ⟨rfl, rfl⟩ | hmem
      · exact Or.inr (List.mem_cons_self _ _)
      · rcases ih hmem with hkv | hmem2
        · exact Or.inl hkv
        · exact Or.inr (List.mem_cons_of_mem _ hmem2)

theorem alistInsert_ne_nil {α : Type} (m : List (FilePath × α)) (k : FilePath)
    (v : α) : alistInsert m k v ≠ [] := by
  cases m with
  | nil => simp [alistInsert]
  | cons kv rest =>
    obtain ⟨k2, w⟩ := kv
    by_cases h : k2 = k <;> simp [alistInsert, h]

theorem alistLookup_eq_none {α : Type} (m : List (FilePath × α)) (k : FilePath) :
    alistLookup m k = none ↔ k ∉ m.map Prod.fst := by
  induction m with
  | nil => simp [alistLookup]
  | cons kv rest ih =>
    obtain ⟨k2, v⟩ := kv
    by_cases h : k2 = k
    · subst h; simp [alistLookup]
    · simp [alistLookup, h, ih]
      intro h2
      exact fun h3 => h (h3.symm)

/-! ### Step lemmas for the store operations -/

theorem getFailures_eq (r : DetectionResults) (q : FilePath) :
    GetFailures r q = (alistLookup r.Failures q).getD [] := by
  unfold GetFailures GetFailuresRead
  cases alistLookup r.Failures q <;> rfl

theorem Failures_Ignore (r : DetectionResults) (p : FilePath) (d : String) :
    (Ignore r p d).Failures = r.Failures := by
  unfold Ignore
  cases alistLookup r.ignores p <;> rfl

theorem ignores_Fail (r : DetectionResults) (p : FilePath) (m : String)
    (c : List String) : (Fail r p m c).ignores = r.ignores := by
  unfold Fail
  cases alistLookup r.Failures p <;> rfl

theorem getFailures_Fail (r : DetectionResults) (p q : FilePath) (m : String)
    (c : List String) :
    GetFailures (Fail r p m c) q =
      if p = q then GetFailures r q ++ [NewFaulureData [m] c] else GetFailures r q := by
  rw [getFailures_eq, getFailures_eq]
  unfold Fail
  cases hlk : alistLookup r.Failures p with
  | none =>
    by_cases h : p = q
    · subst h; simp [alistLookup_insert_self, hlk]
    · simp [alistLookup_insert_ne _ _ _ _ h, h]
  | some errors =>
    by_cases h : p = q
    · subst h; simp [alistLookup_insert_self, hlk]
    · simp [alistLookup_insert_ne _ _ _ _ h, h]

theorem getFailures_Ignore (r : DetectionResults) (p q : FilePath) (d : String) :
    GetFailures (Ignore r p d) q = GetFailures r q := by
  rw [getFailures_eq, getFailures_eq, Failures_Ignore]

theorem getFailures_foldl (ops : List Op) (r : DetectionResults) (path : FilePath) :
    GetFailures (ops.foldl step r) path =
      GetFailures r path ++
        (failCallsOn path ops).map (fun mc => NewFaulureData [mc.1] mc.2) := by
  induction ops generalizing r with
  | nil => simp [failCallsOn]
  | cons op rest ih =>
    cases op with
    | fail p m c =>
      by_cases h : p = path
      · subst h
        simp [List.foldl, step, ih, failCallsOn, getFailures_Fail]
      · simp [List.foldl, step, ih, failCallsOn, getFailures_Fail, h]
    | ignore p d =>
      simp [List.foldl, step, ih, failCallsOn, getFailures_Ignore]

/-- C1: for every run of detector callbacks, `GetFailures(path)` is exactly the
concatenation, in call order, of the data of the `Fail` calls on that path:
one `FailureData` per call, the message wrapped as a single-element sequence
together with the supplied commits, nothing overwritten, nothing reordered. -/
theorem getFailures_run_concat (ops : List Op) (path : FilePath) :
    GetFailures (run ops) path =
      (failCallsOn path ops).map (fun mc => NewFaulureData [mc.1] mc.2) := by
  have h := getFailures_foldl ops NewDetectionResults path
  simpa [run, NewDetectionResults, getFailures_eq, alistLookup] using h

theorem HasFailures_Fail (r : DetectionResults) (p : FilePath) (m : String)
    (c : List String) : HasFailures (Fail r p m c) = true := by
  unfold HasFailures Fail
  cases hlk : alistLookup r.Failures p <;>
    simp [List.length_pos, alistInsert_ne_nil]

theorem HasFailures_Ignore (r : DetectionResults) (p : FilePath) (d : String) :
    HasFailures (Ignore r p d) = HasFailures r := by
  unfold HasFailures
  rw [Failures_Ignore]

theorem hasFailures_foldl (ops : List Op) (r : DetectionResults) :
    HasFailures (ops.foldl step r) = (HasFailures r || ops.any Op.isFail) := by
  induction ops generalizing r with
  | nil => simp
  | cons op rest ih =>
    cases op with
    | fail p m c =>
      simp [List.foldl, step, ih, Op.isFail, HasFailures_Fail]
    | ignore p d =>
      simp [List.foldl, step, ih, Op.isFail, HasFailures_Ignore]

/-- C8: after any run of callbacks starting from the fresh empty store,
`HasFailures()` is true exactly when at least one `Fail` call occurred on any
path, and `Successful()` is the logical negation of `HasFailures()`. -/
theorem hasFailures_iff_fail_call (ops : List Op) :
    HasFailures (run ops) = ops.any Op.isFail ∧
      Successful (run ops) = !(HasFailures (run ops)) := by
  constructor
  · have h := hasFailures_foldl ops NewDetectionResults
    simpa [run, NewDetectionResults, HasFailures] using h
  · rfl

theorem Fail_failure_values (r : DetectionResults) (fp : FilePath) (m : String)
    (c : List String) (hf : ∀ p v, (p, v) ∈ r.Failures → v ≠ []) :
    ∀ p v, (p, v) ∈ (Fail r fp m c).Failures → v ≠ [] := by
  intro p v hv
  unfold Fail at hv
  cases hlk : alistLookup r.Failures fp with
  | none =>
    rw [hlk] at hv
    simp only at hv
    rcases mem_alistInsert _ _ _ _ _ hv with ⟨_, rfl⟩ | hmem
    · simp
    · exact hf _ _ hmem
  | some errors =>
    rw [hlk] at hv
    simp only at hv
    rcases mem_alistInsert _ _ _ _ _ hv with ⟨_, rfl⟩ | hmem
    · simp
    · exact hf _ _ hmem

theorem Ignore_ignore_values (r : DetectionResults) (fp : FilePath) (d : String)
    (hi : ∀ p v, (p, v) ∈ r.ignores → v ≠ []) :
    ∀ p v, (p, v) ∈ (Ignore r fp d).ignores → v ≠ [] := by
  intro p v hv
  unfold Ignore at hv
  cases hlk : alistLookup r.ignores fp with
  | none =>
    rw [hlk] at hv
    simp only at hv
    rcases mem_alistInsert _ _ _ _ _ hv with ⟨_, rfl⟩ | hmem
    · simp
    · exact hi _ _ hmem
  | some igns =>
    rw [hlk] at hv
    simp only at hv
    rcases mem_alistInsert _ _ _ _ _ hv with ⟨_, rfl⟩ | hmem
    · simp
    · exact hi _ _ hmem

theorem values_foldl (ops : List Op) (r : DetectionResults)
    (hf : ∀ p v, (p, v) ∈ r.Failures → v ≠ [])
    (hi : ∀ p v, (p, v) ∈ r.ignores → v ≠ []) :
    (∀ p v, (p, v) ∈ (ops.foldl step r).Failures → v ≠ []) ∧
      (∀ p v, (p, v) ∈ (ops.foldl step r).ignores → v ≠ []) := by
  induction ops generalizing r with
  | nil => exact ⟨hf, hi⟩
  | cons op rest ih =>
    cases op with
    | fail p m c =>
      exact ih (Fail r p m c) (Fail_failure_values r p m c hf)
        (by rw [ignores_Fail]; exact hi)
    | ignore p d =>
      exact ih (Ignore r p d) (by rw [Failures_Ignore]; exact hf)
        (Ignore_ignore_values r p d hi)

theorem mem_keys_Fail (r : DetectionResults) (q p : FilePath) (m : String)
    (c : List String) :
    p ∈ failurePaths (Fail r q m c) ↔ p = q ∨ p ∈ failurePaths r := by
  unfold failurePaths Fail
  cases hlk : alistLookup r.Failures q
  · exact mem_keys_alistInsert _ _ _ _
  · exact mem_keys_alistInsert _ _ _ _

theorem keys_foldl_origin (ops : List Op) (r : DetectionResults) (p : FilePath) :
    p ∈ failurePaths (ops.foldl step r) →
      p ∈ failurePaths r ∨ ∃ m c, Op.fail p m c ∈ ops := by
  induction ops generalizing r with
  | nil => exact fun h => Or.inl h
  | cons op rest ih =>
    intro h
    rcases ih (step r op) h with hk | ⟨m, c, hmem⟩
    · cases op with
      | fail q m c =>
        rcases (mem_keys_Fail r q p m c).mp hk with rfl | hin
        · exact Or.inr ⟨m, c, List.mem_cons_self _ _⟩
        · exact Or.inl hin
      | ignore q d =>
        left
        unfold failurePaths at hk ⊢
        rwa [show (step r (Op.ignore q d)).Failures = r.Failures from
          Failures_Ignore r q d] at hk
    · exact Or.inr ⟨m, c, List.mem_cons_of_mem _ hmem⟩

/-- C9: invariant of every run from the fresh empty store: a path is a key of
the failures map only if some `Fail` call targeted it, the `FailureData`
sequence under any existing failures key is nonempty, and the detector-name
sequence under any existing ignores key is nonempty. -/
theorem store_invariant (ops : List Op) :
    (∀ p v, (p, v) ∈ (run ops).Failures →
        (∃ m c, Op.fail p m c ∈ ops) ∧ v ≠ []) ∧
      (∀ p v, (p, v) ∈ (run ops).ignores → v ≠ []) := by
  have hval := values_foldl ops NewDetectionResults
    (by simp [NewDetectionResults]) (by simp [NewDetectionResults])
  refine ⟨fun p v hv => ⟨?_, hval.1 p v hv⟩, hval.2⟩
  have hk : p ∈ failurePaths (run ops) := by
    unfold failurePaths
    exact List.mem_map_of_mem Prod.fst hv
  rcases keys_foldl_origin ops NewDetectionResults p hk with h0 | h
  · simp [NewDetectionResults, failurePaths] at h0
  · exact h

/-- Concrete instance of `store_invariant`: one failure and one ignore. -/
theorem store_invariant_witness :
    (("s.txt", [NewFaulureData ["m"] ["c1"]]) ∈
        (run [Op.fail "s.txt" "m" ["c1"], Op.ignore "i.txt" "d"]).Failures) ∧
      (∃ m c, Op.fail "s.txt" m c ∈ [Op.fail "s.txt" "m" ["c1"], Op.ignore "i.txt" "d"]) ∧
      [NewFaulureData ["m"] ["c1"]] ≠ [] :=
  ⟨by decide,
    (store_invariant [Op.fail "s.txt" "m" ["c1"], Op.ignore "i.txt" "d"]).1
      "s.txt" [NewFaulureData ["m"] ["c1"]] (by decide)⟩

/-- C10: `GetFailures(path)` on a path absent from the failures map returns the
empty sequence, and the Go map read leaves the store exactly as it was: no
entry is created as a side effect of reading. -/
theorem getFailures_absent (r : DetectionResults) (path : FilePath)
    (h : path ∉ failurePaths r) :
    GetFailures r path = [] ∧ GetFailuresRead r path = ([], r) := by
  have hlk : alistLookup r.Failures path = none :=
    (alistLookup_eq_none _ _).mpr h
  constructor
  · rw [getFailures_eq, hlk]; rfl
  · unfold GetFailuresRead
    rw [hlk]

/-- Concrete run exercising `getFailures_absent`: one failure on another path. -/
theorem getFailures_absent_witness :
    ("missing.txt" ∉ failurePaths (run [Op.fail "present.txt" "msg" []])) ∧
      GetFailures (run [Op.fail "present.txt" "msg" []]) "missing.txt" = [] ∧
      GetFailuresRead (run [Op.fail "present.txt" "msg" []]) "missing.txt" =
        ([], run [Op.fail "present.txt" "msg" []]) :=
  ⟨by decide, getFailures_absent _ _ (by decide)⟩

/-! ### The `unique` helper and the suggestion builder -/

theorem mem_uniqueAux (l : List String) : ∀ (seen : List String) (p : String),
    p ∈ uniqueAux l seen ↔ p ∈ l ∧ p ∉ seen := by
  induction l with
  | nil => intro seen p; simp [uniqueAux]
  | cons e rest ih =>
    intro seen p
    by_cases h : e ∈ seen
    · rw [uniqueAux, if_pos h, ih]
      constructor
      · rintro ⟨hp, hps⟩
        exact ⟨List.mem_cons_of_mem _ hp, hps⟩
      · rintro ⟨hp, hps⟩
        rcases List.mem_cons.mp hp with rfl | hp2
        · exact absurd h hps
        · exact ⟨hp2, hps⟩
    · rw [uniqueAux, if_neg h]
      constructor
      · intro hmem
        rcases List.mem_cons.mp hmem with rfl | hmem2
        · exact ⟨List.mem_cons_self _ _, h⟩
        · rcases (ih _ _).mp hmem2 with ⟨hp, hps⟩
          exact ⟨List.mem_cons_of_mem _ hp,
            fun hs => hps (List.mem_cons_of_mem _ hs)⟩
      · rintro ⟨hp, hps⟩
        rcases List.mem_cons.mp hp with rfl | hp2
        · exact List.mem_cons_self _ _
        · by_cases hpe : p = e
          · subst hpe; exact List.mem_cons_self _ _
          · refine List.mem_cons_of_mem _ ((ih _ _).mpr ⟨hp2, fun hs => ?_⟩)
            rcases List.mem_cons.mp hs with h1 | h2
            · exact hpe h1
            · exact hps h2

theorem nodup_uniqueAux (l : List String) : ∀ seen, (uniqueAux l seen).Nodup := by
  induction l with
  | nil => intro seen; simp [uniqueAux]
  | cons e rest ih =>
    intro seen
    by_cases h : e ∈ seen
    · rw [uniqueAux, if_pos h]; exact ih _
    · rw [uniqueAux, if_neg h]
      refine List.nodup_cons.mpr ⟨fun hmem => ?_, ih _⟩
      rcases (mem_uniqueAux rest _ e).mp hmem with ⟨_, hns⟩
      exact hns (List.mem_cons_self _ _)

theorem nodup_unique (l : List String) : (unique l).Nodup :=
  nodup_uniqueAux l []

theorem mem_unique (l : List String) (p : String) : p ∈ unique l ↔ p ∈ l := by
  rw [unique, mem_uniqueAux]
  simp

theorem foldl_append_singleton {α β : Type} (f : α → β) (l : List α)
    (acc : List β) :
    l.foldl (fun cs p => cs ++ [f p]) acc = acc ++ l.map f := by
  induction l generalizing acc with
  | nil => simp
  | cons e rest ih => simp [List.foldl, ih]

theorem suggestedConfigs_eq_map (hash : List String → String)
    (filePaths : List String) :
    suggestedConfigs hash filePaths =
      filePaths.map (fun filePath =>
        { fileName := filePath, checksum := hash [filePath],
          allowedPatterns := [] }) := by
  unfold suggestedConfigs
  rw [foldl_append_singleton]
  rfl

/-- C6: the suggestion builder derives, for each deduplicated path in input
order, exactly one record whose checksum is the hash of the one-element list
holding just that path and whose pattern list is empty; moreover only the
values of the hash on one-element lists matter — two hash functions agreeing
on all singletons yield identical records, so no batch of all paths is ever
hashed. -/
theorem suggested_configs_per_path (hash hash2 : List String → String)
    (filePaths : List String) :
    suggestedConfigs hash filePaths =
        filePaths.map (fun p =>
          { fileName := p, checksum := hash [p], allowedPatterns := [] }) ∧
      ((∀ p, hash [p] = hash2 [p]) →
        suggestedConfigs hash filePaths = suggestedConfigs hash2 filePaths) := by
  refine ⟨suggestedConfigs_eq_map hash filePaths, fun hagree => ?_⟩
  rw [suggestedConfigs_eq_map, suggestedConfigs_eq_map]
  exact List.map_congr_left fun p _ => by rw [hagree]

/-- A hash answering a fixed digest, and one that distinguishes batch calls:
they agree on singleton lists. -/
def hashA : List String → String := fun _ => "d1"

/-- See `hashA`. -/
def hashB : List String → String := fun l => if l.length = 1 then "d1" else "batch"

/-- Concrete instance of `suggested_configs_per_path` on two paths. -/
theorem suggested_configs_per_path_witness :
    suggestedConfigs hashA ["a", "b"] =
        ["a", "b"].map (fun p =>
          { fileName := p, checksum := hashA [p], allowedPatterns := [] }) ∧
      suggestedConfigs hashA ["a", "b"] = suggestedConfigs hashB ["a", "b"] :=
  ⟨(suggested_configs_per_path hashA hashB ["a", "b"]).1,
    (suggested_configs_per_path hashA hashB ["a", "b"]).2 (fun _ => rfl)⟩

/-- C4: the file names of the suggested ignore records are duplicate-free and
are exactly the union of the failures keys and the ignores keys, however many
failures or ignores each path accumulated. -/
theorem suggestion_paths_union (hash : List String → String)
    (r : DetectionResults) :
    ((suggestedConfigs hash (reportPaths r)).map FileIgnoreConfig.fileName).Nodup ∧
      ∀ p, p ∈ (suggestedConfigs hash (reportPaths r)).map FileIgnoreConfig.fileName ↔
        (p ∈ failurePaths r ∨ p ∈ ignorePaths r) := by
  have hmap : (suggestedConfigs hash (reportPaths r)).map FileIgnoreConfig.fileName =
      reportPaths r := by
    rw [suggestedConfigs_eq_map, List.map_map]
    exact List.map_id _
  rw [hmap]
  constructor
  · exact nodup_unique _
  · intro p
    rw [reportPaths, mem_unique, List.mem_append]

/-- C7: a failure of the serializer is swallowed: whenever `yaml.Marshal`
returns a text together with an error, `suggestTalismanRC` returns that text
alone and surfaces no failure to its caller. -/
theorem marshal_error_swallowed (cfg : ReportConfig) (filePaths : List String)
    (t e : String)
    (h : cfg.yamlMarshal
        { fileIgnoreConfigs :=
            suggestedConfigs cfg.CalculateCollectiveHash filePaths } =
      (t, some e)) :
    suggestTalismanRC cfg filePaths = t := by
  unfold suggestTalismanRC
  rw [h]

/-- Collaborators whose serializer always errors after producing partial text. -/
def failConfig : ReportConfig where
  CalculateCollectiveHash := fun _ => "digest"
  yamlMarshal := fun _ => ("partial text", some "encoder exploded")
  renderTable := fun _ => ""

/-- Concrete instance of `marshal_error_swallowed`. -/
theorem marshal_error_swallowed_witness :
    failConfig.yamlMarshal
        { fileIgnoreConfigs :=
            suggestedConfigs failConfig.CalculateCollectiveHash ["a"] } =
        ("partial text", some "encoder exploded") ∧
      suggestTalismanRC failConfig ["a"] = "partial text" :=
  ⟨rfl, marshal_error_swallowed failConfig ["a"] _ _ rfl⟩

/-! ### Reporting: truncation and the structure of `Report` -/

theorem reportFileFailures_single (path : FilePath) (msg : String)
    (commits : List String) :
    ReportFileFailures (Fail NewDetectionResults path msg commits) path false =
      [[path, truncateMessage msg]] := by
  simp [Fail, NewDetectionResults, ReportFileFailures, alistLookup, alistInsert,
    failureRow, NewFaulureData]

/-- C3: a failure message longer than 150 characters is rendered as the
150-character prefix and the remaining suffix joined by a single line break
inserted right after character 150, and a message of at most 150 characters is
rendered unchanged. -/
theorem message_truncation (path : FilePath) (msg : String)
    (commits : List String) :
    (150 < msg.length →
      ReportFileFailures (Fail NewDetectionResults path msg commits) path false =
          [[path, String.mk (msg.data.take 150) ++ "\n" ++
            String.mk (msg.data.drop 150)]] ∧
        (String.mk (msg.data.take 150)).length = 150 ∧
        (String.mk (msg.data.drop 150)).length = msg.length - 150) ∧
      (msg.length ≤ 150 →
        ReportFileFailures (Fail NewDetectionResults path msg commits) path false =
          [[path, msg]]) := by
  constructor
  · intro h
    refine ⟨?_, ?_, ?_⟩
    · rw [reportFileFailures_single]
      unfold truncateMessage
      rw [if_pos h]
    · show (msg.data.take 150).length = 150
      rw [List.length_take]
      exact min_eq_left (Nat.le_of_lt h)
    · show (msg.data.drop 150).length = msg.length - 150
      rw [List.length_drop]
      rfl
  · intro h
    rw [reportFileFailures_single]
    unfold truncateMessage
    rw [if_neg (Nat.not_lt.mpr h)]

/-- The 151-character message exercising the truncation rule. -/
def msg151 : String := String.mk (List.replicate 151 'a')

set_option maxRecDepth 4000 in
/-- Concrete instance of `message_truncation` at a 151-character message:
a 150-character prefix and a 1-character suffix joined by a line break. -/
theorem message_truncation_witness :
    150 < msg151.length ∧
      (ReportFileFailures (Fail NewDetectionResults "f.txt" msg151 []) "f.txt" false =
          [["f.txt", String.mk (msg151.data.take 150) ++ "\n" ++
            String.mk (msg151.data.drop 150)]] ∧
        (String.mk (msg151.data.take 150)).length = 150 ∧
        (String.mk (msg151.data.drop 150)).length = msg151.length - 150) :=
  ⟨by decide, (message_truncation "f.txt" msg151 []).1 (by decide)⟩

/-- C5: with an empty failures map, `Report()` writes nothing to standard
output and returns the empty string, whatever was ignored. -/
theorem report_no_failures (cfg : ReportConfig) (r : DetectionResults)
    (h : HasFailures r = false) : Report cfg r = ("", "") := by
  have hlen : ¬ 0 < r.Failures.length := by simpa [HasFailures] using h
  unfold Report
  rw [if_neg hlen]

/-- Concrete collaborators for closed evaluations of `Report`. -/
def testConfig : ReportConfig where
  CalculateCollectiveHash := fun paths => String.intercalate "," paths ++ "-digest"
  yamlMarshal := fun rc =>
    ("fileignoreconfig:" ++
      String.intercalate "" (rc.fileIgnoreConfigs.map
        (fun c => " " ++ c.fileName ++ " " ++ c.checksum)), none)
  renderTable := fun data =>
    String.intercalate "!" (data.map (String.intercalate "&"))

/-- Concrete instance of `report_no_failures`: a run with one ignore and no
failure reports nothing. -/
theorem report_no_failures_witness :
    HasFailures (run [Op.ignore "a.txt" "filename detector"]) = false ∧
      Report testConfig (run [Op.ignore "a.txt" "filename detector"]) = ("", "") :=
  ⟨by decide, report_no_failures _ _ (by decide)⟩

/-- Store with a single failure, for the `Report` structure results. -/
def cexStore : DetectionResults := run [Op.fail "secrets.txt" "AWS key detected" []]

/-- C2 counterexample: at a concrete store and concrete collaborators the
string returned by `Report()` is not the banner followed by the note followed
by the suggestion block — the banner is printed to standard output and never
enters the returned string. -/
theorem report_banner_cex :
    (Report testConfig cexStore).2 ≠
      bannerText ++ noteText ++ suggestTalismanRC testConfig (reportPaths cexStore) := by
  decide

/-- C2 amended: when failures exist, standard output receives the banner
followed by the rendered table, and the returned string is the instructional
note, then the suggestion block, then a blank line; neither the banner nor the
table is part of the returned string. -/
theorem report_structure (cfg : ReportConfig) (r : DetectionResults)
    (h : HasFailures r = true) :
    Report cfg r =
      (bannerText ++ cfg.renderTable (reportData r),
        noteText ++ suggestTalismanRC cfg (reportPaths r) ++ "\n\n") := by
  have hlen : 0 < r.Failures.length := by simpa [HasFailures] using h
  unfold Report
  rw [if_pos hlen]

/-- Concrete instance of `report_structure`. -/
theorem report_structure_witness :
    HasFailures cexStore = true ∧
      Report testConfig cexStore =
        (bannerText ++ testConfig.renderTable (reportData cexStore),
          noteText ++ suggestTalismanRC testConfig (reportPaths cexStore) ++ "\n\n") :=
  ⟨by decide, report_structure testConfig cexStore (by decide)⟩

end Talisman
